import Mathlib

/-!
Verification development for the Crisis Compass repository
(`CrisisCompass.py`).  The text-normalization pipeline (`clean_text`
inside `preprocess_text`), the two filtering operations
(`filter_by_topic`, `filter_by_country`), the fit phase
(`train_lda_model`) and the transform step used by `select_topic` are
shallowly embedded below; external collaborators (the WordNet
lemmatizer, the NLTK and scikit-learn stop-word data, and the LDA
variational step) are taken as explicit parameters or modelled from
their documented behaviour where noted.
-/

namespace CrisisCompass

/-- The 26 ASCII upper-case letters paired with their lower-case forms;
used to model `str.lower()` on the ASCII range. -/
def upperLower : List (Char × Char) :=
  [('A','a'), ('B','b'), ('C','c'), ('D','d'), ('E','e'), ('F','f'),
   ('G','g'), ('H','h'), ('I','i'), ('J','j'), ('K','k'), ('L','l'),
   ('M','m'), ('N','n'), ('O','o'), ('P','p'), ('Q','q'), ('R','r'),
   ('S','s'), ('T','t'), ('U','u'), ('V','v'), ('W','w'), ('X','x'),
   ('Y','y'), ('Z','z')]

/-- Lower-case a single character (ASCII model of Python `str.lower`). -/
def charLower (c : Char) : Char :=
  ((upperLower.find? (fun p => p.1 == c)).map (fun p => p.2)).getD c

/-- Word character in the sense of the regex `\w`: letter, digit or
underscore (ASCII model). -/
def isWordChar (c : Char) : Bool :=
  c.isAlphanum || c == '_'

/-- Python `text.lower()` at the character-list level. -/
def pyLower (s : String) : String :=
  ⟨s.data.map charLower⟩

/-- Model of `re.sub(r'\W+', ' ', text)`: every maximal run of
non-word characters is replaced by a single space.  The boolean flag
records whether the previous character was part of a non-word run. -/
def subNonWordAux : Bool → List Char → List Char
  | _, [] => []
  | inRun, c :: cs =>
    if isWordChar c then c :: subNonWordAux false cs
    else if inRun then subNonWordAux true cs
    else ' ' :: subNonWordAux true cs

/-- Model of `re.sub(r'\W+', ' ', text)` on strings. -/
def subNonWord (s : String) : String :=
  ⟨subNonWordAux false s.data⟩

/-- Model of Python `str.split()` (whitespace split, empties dropped)
at the character level; `acc` is the reversed current token. -/
def splitAcc (acc : List Char) : List Char → List (List Char)
  | [] => if acc.isEmpty then [] else [acc.reverse]
  | c :: cs =>
    if c = ' ' then
      if acc.isEmpty then splitAcc [] cs else acc.reverse :: splitAcc [] cs
    else splitAcc (c :: acc) cs

/-- Python `text.split()` on strings (the text fed to it by
`clean_text` only ever contains spaces as whitespace). -/
def pySplit (s : String) : List String :=
  (splitAcc [] s.data).map (fun l => ⟨l⟩)

/-- Join a list of character-list tokens with single spaces. -/
def joinAux : List (List Char) → List Char
  | [] => []
  | [t] => t
  | t :: t' :: ts => t ++ ' ' :: joinAux (t' :: ts)

/-- Model of `' '.join(tokens)`. -/
def joinWords (ts : List String) : String :=
  ⟨joinAux (ts.map String.data)⟩

/-- The token list built by `clean_text` just before the final join:
lower-case, substitute non-word runs, split, then the comprehension
`[lemmatizer.lemmatize(w) for w in tokens if w not in stop_words and
len(w) > 2]` (filter, then map).  The lemmatizer and the stop-word set
are the external collaborators of `preprocess_text`. -/
def cleanTokens (lemmatize : String → String) (stop_words : List String)
    (text : String) : List String :=
  ((pySplit (subNonWord (pyLower text))).filter
      (fun w => !(stop_words.contains w) && decide (2 < w.length))).map lemmatize

/-- The embedded `clean_text` from `preprocess_text`
(`CrisisCompass.py` lines 26-30). -/
def cleanText (lemmatize : String → String) (stop_words : List String)
    (text : String) : String :=
  joinWords (cleanTokens lemmatize stop_words text)

/-- The Text Normalizer as the specification words it, as six
sequential steps: lower-case; replace maximal non-word runs by one
space; split on whitespace; drop stop words and tokens of length at
most 2; lemmatize the survivors; re-join with single spaces. -/
def cleanTextSpec (lemmatize : String → String) (stop_words : List String)
    (text : String) : String :=
  let lowered := pyLower text
  let substituted := subNonWord lowered
  let tokens := pySplit substituted
  let kept := tokens.filter (fun w => !(stop_words.contains w) && decide (2 < w.length))
  let lemmas := kept.map lemmatize
  joinWords lemmas

/-- One cell of the `Impact` column of the loaded table: pandas holds
either a Python string or a missing value (`NaN`, a float). -/
inductive Cell where
  | str (s : String)
  | nan
deriving DecidableEq, Repr

/-- Whether a cell holds a string. -/
def Cell.isStr : Cell → Bool
  | .str _ => true
  | .nan => false

/-- The string held by a cell (dummy value on `nan`). -/
def Cell.getStr : Cell → String
  | .str s => s
  | .nan => ""

/-- One row of the DataFrame loaded from `World Important Dates.csv`:
the columns named by the program, plus the two columns the program
itself adds (`Processed_Impact` in `preprocess_text`,
`Topic_Distribution` in `filter_by_topic`), absent (`none`) until the
corresponding function writes them. -/
structure Row where
  nameOfIncident : String := ""
  date : String := ""
  month : String := ""
  year : String := ""
  country : String := ""
  typeOfEvent : String := ""
  placeName : String := ""
  impact : Cell := .str ""
  affectedPopulation : String := ""
  responsible : String := ""
  outcome : String := ""
  processedImpact : Option String := none
  topicDistribution : Option ℚ := none
deriving DecidableEq, Repr

instance : Inhabited Row := ⟨{}⟩

/-- The `clean_text` call on one `Impact` cell: on a string it returns
the normalized string; on a missing value `text.lower()` raises
`AttributeError` (there is no guard), modelled as `Except.error`. -/
def clean_text_cell (lemmatize : String → String) (stop_words : List String) :
    Cell → Except String String
  | .str s => .ok (cleanText lemmatize stop_words s)
  | .nan => .error "AttributeError: float object has no attribute lower"

/-- The embedded `preprocess_text` (`CrisisCompass.py` lines 22-33):
`df['Processed_Impact'] = df['Impact'].apply(clean_text)` writes the
normalized impact into each row in order and returns the (mutated)
DataFrame; the first raising cell aborts the whole call. -/
def preprocess_text (lemmatize : String → String) (stop_words : List String) :
    List Row → Except String (List Row)
  | [] => .ok []
  | r :: rs =>
    match clean_text_cell lemmatize stop_words r.impact with
    | .error e => .error e
    | .ok p =>
      match preprocess_text lemmatize stop_words rs with
      | .error e => .error e
      | .ok rest => .ok ({ r with processedImpact := some p } :: rest)

/-- Column `t` of a topic-distribution matrix
(numpy `topic_distributions[:, t]`), with default `0` outside the
stated alignment hypotheses. -/
def npColumn (dist : List (List ℚ)) (t : Nat) : List ℚ :=
  dist.map (fun d => d.getD t 0)

/-- The embedded `filter_by_topic` (`CrisisCompass.py` lines 47-50).
The Python function first assigns
`df['Topic_Distribution'] = topic_distributions[:, selected_topic]`
on the caller's DataFrame, then selects the rows whose stored value
exceeds the threshold `0.1` (the exact rational `mkRat 1 10`).  The first component is the caller's DataFrame after
the call (the in-place column assignment made explicit); the second is
the returned filtered frame. -/
def filter_by_topic (df : List Row) (selected_topic : Nat)
    (topic_distributions : List (List ℚ)) : List Row × List Row :=
  let df2 := (df.zip (npColumn topic_distributions selected_topic)).map
      (fun p => { p.1 with topicDistribution := some p.2 })
  (df2, df2.filter (fun r => decide (mkRat 1 10 < r.topicDistribution.getD 0)))

/-- The embedded `filter_by_country` (`CrisisCompass.py` lines 53-54):
`df[df['Country'] == selected_country]`. -/
def filter_by_country (df : List Row) (selected_country : String) : List Row :=
  df.filter (fun r => r.country == selected_country)

/-- Modelled from the spec: the analyzer of
`TfidfVectorizer(max_df=0.9, min_df=2, ngram_range=(1, 2),
stop_words='english')` — a scikit-learn collaborator whose fit-phase
behaviour the repository only configures.  Tokens are the maximal runs
of at least two word characters (default token pattern), the library's
English stop words (`sklStop`) are removed, then unigrams and adjacent
bigrams are produced. -/
def sklearn_analyze (sklStop : List String) (doc : String) : List String :=
  let toks := ((splitAcc [] (subNonWordAux false (pyLower doc).data)).map
      (fun l => (⟨l⟩ : String))).filter
      (fun w => decide (2 ≤ w.length) && !(sklStop.contains w))
  toks ++ (toks.zip toks.tail).map (fun p => p.1 ++ " " ++ p.2)

/-- Number of analyzed documents containing a given term. -/
def docFreq (analyzed : List (List String)) (term : String) : Nat :=
  (analyzed.filter (fun d => d.contains term)).length

/-- Modelled from the spec: the vocabulary surviving the
document-frequency bounds `min_df = 2` and `max_df = 0.9` (a term is
kept when it occurs in at least 2 documents and in at most 90% of
them; `10 * df ≤ 9 * n` is the exact rational form of the latter). -/
def fitVocab (sklStop : List String) (docs : List String) : List String :=
  let analyzed := docs.map (sklearn_analyze sklStop)
  (analyzed.flatten.dedup).filter
    (fun t => decide (2 ≤ docFreq analyzed t) &&
      decide (10 * docFreq analyzed t ≤ 9 * docs.length))

/-- Modelled from the spec: the configuration/vocabulary errors the
fit phase raises (scikit-learn `ValueError`s): an empty raw
vocabulary; `max_df * n` smaller than `min_df`; and an empty
vocabulary after document-frequency pruning, the last two reporting
the offending bounds. -/
inductive FitError where
  | emptyVocabulary
  | maxDfLtMinDf (max_df : ℚ) (min_df : Nat)
  | noTermsRemain (min_df : Nat) (max_df : ℚ)
deriving DecidableEq, Repr

/-- The fitted term-weighting transform and topic model kept as one
unit (`train_lda_model` returns `lda, vectorizer` together). -/
structure FittedUnit where
  vocab : List String
  n_topics : Nat
deriving DecidableEq, Repr

/-- The embedded `train_lda_model` (`CrisisCompass.py` lines 36-44).
The documents are the `Processed_Impact` column; the vectorizer's fit
either raises one of the vocabulary errors or yields the pruned
vocabulary, retained with the topic count (default 7) as the fitted
unit.  The LDA optimization itself (seeded, online, 10 iterations) has
no bearing on the claims and is not modelled beyond the topic count. -/
def train_lda_model (sklStop : List String) (df : List Row)
    (n_topics : Nat := 7) : Except FitError FittedUnit :=
  let docs := df.map (fun r => r.processedImpact.getD "")
  let analyzed := docs.map (sklearn_analyze sklStop)
  if (analyzed.flatten.dedup).isEmpty then .error .emptyVocabulary
  else if decide (9 * docs.length < 20) then
    .error (.maxDfLtMinDf (9/10 : ℚ) 2)
  else if (fitVocab sklStop docs).isEmpty then
    .error (.noTermsRemain 2 (9/10 : ℚ))
  else .ok ⟨fitVocab sklStop docs, n_topics⟩

/-- Modelled from the spec: one row of scikit-learn
`LatentDirichletAllocation.transform` — the per-document variational
topic weights (all positive, one per topic) normalized to a
probability distribution by dividing by their sum. -/
def lda_transform_row (gamma : List ℚ) : List ℚ :=
  gamma.map (fun g => g / gamma.sum)

/-- The transform pipeline of `select_topic` (`CrisisCompass.py` lines
196-202): `vectorizer.transform` on the `Processed_Impact` column
followed by `lda.transform`, producing one distribution per record.
`gamma_of` abstracts the fitted unit's per-document unnormalized topic
weights. -/
def topic_distributions (gamma_of : String → List ℚ) (df : List Row) :
    List (List ℚ) :=
  df.map (fun r => lda_transform_row (gamma_of (r.processedImpact.getD "")))

/-- A length-`K` probability vector: `K` entries, all nonnegative,
summing to exactly 1. -/
def isDistribution (K : Nat) (p : List ℚ) : Bool :=
  (p.length == K) && p.all (fun q => decide (0 ≤ q)) && (p.sum == 1)

/-- The token list `clean_text` obtains after its first three steps
(lower-case, substitute non-word runs, whitespace split), before the
stop-word/length filter and lemmatization. -/
def preTokens (text : String) : List String :=
  pySplit (subNonWord (pyLower text))

/-- A token in the normal form the first three steps produce: nonempty,
only word characters, all fixed by lower-casing. -/
def isCleanToken (t : String) : Bool :=
  !(t.data.isEmpty) && t.data.all (fun c => isWordChar c && (charLower c == c))

/-- A token of the Normalizer's output that the Normalizer would keep
unchanged on a second pass: in normal form, longer than 2, not a stop
word, and a fixed point of the lemmatizer. -/
def goodToken (stop_words : List String) (lemmatize : String → String)
    (t : String) : Bool :=
  isCleanToken t && decide (2 < t.length) && !(stop_words.contains t) &&
    (lemmatize t == t)

/-- Whether an `Except` computation succeeded. -/
def isOkE {ε α : Type} : Except ε α → Bool
  | .ok _ => true
  | .error _ => false

/-- A lemmatizer fragment recording the actual WordNet behaviour on the
irregular plural `oxen` (`WordNetLemmatizer().lemmatize('oxen') = 'ox'`)
and acting as the identity elsewhere, the identity being WordNet's
behaviour on words outside its dictionary. -/
def lemOx (w : String) : String :=
  if w == "oxen" then "ox" else w

/-- Sample records over the countries India and France, as in the
specification's filter-by-category property. -/
def sampleDf : List Row :=
  [{ nameOfIncident := "A", country := "India" },
   { nameOfIncident := "B", country := "France" },
   { nameOfIncident := "C", country := "India" }]

/-- Sample corpus whose terms all occur in exactly one document, so
that the document-frequency lower bound `min_df = 2` prunes the whole
vocabulary. -/
def fitDf : List Row :=
  [{ processedImpact := some "war famine" },
   { processedImpact := some "peace treaty" },
   { processedImpact := some "storm flood" }]

/-- Constant variational-weight function used to witness the transform
properties with two topics. -/
def gammaTwo : String → List ℚ :=
  fun _ => [(1 : ℚ), 3]

/-- Lower-casing fixes every lower-case image in the table. -/
theorem charLower_snd_fix : ∀ p ∈ upperLower, charLower p.2 = p.2 := by decide

/-- Lower-casing a character twice is the same as doing it once. -/
theorem charLower_idem (c : Char) : charLower (charLower c) = charLower c := by
  cases h : upperLower.find? (fun p => p.1 == c) with
  | none =>
    have hc : charLower c = c := by simp [charLower, h]
    rw [hc, hc]
  | some p =>
    have hp : p ∈ upperLower := List.mem_of_find?_eq_some h
    have hc : charLower c = p.2 := by simp [charLower, h]
    rw [hc]
    exact charLower_snd_fix p hp

/-- Every character of the substituted text is a space or a word
character of the input. -/
theorem mem_subNonWordAux (l : List Char) : ∀ (b : Bool) (c : Char),
    c ∈ subNonWordAux b l → c = ' ' ∨ (c ∈ l ∧ isWordChar c = true) := by
  induction l with
  | nil => intro b c h; simp [subNonWordAux] at h
  | cons d ds ih =>
    intro b c h
    simp only [subNonWordAux] at h
    by_cases hw : isWordChar d
    · rw [if_pos hw] at h
      rcases List.mem_cons.mp h with rfl | h'
      · exact Or.inr ⟨List.mem_cons_self _ _, hw⟩
      · rcases ih false c h' with h'' | ⟨hm, hwc⟩
        · exact Or.inl h''
        · exact Or.inr ⟨List.mem_cons_of_mem _ hm, hwc⟩
    · rw [if_neg hw] at h
      cases b with
      | true =>
        rw [if_pos rfl] at h
        rcases ih true c h with h'' | ⟨hm, hwc⟩
        · exact Or.inl h''
        · exact Or.inr ⟨List.mem_cons_of_mem _ hm, hwc⟩
      | false =>
        rw [if_neg (by simp)] at h
        rcases List.mem_cons.mp h with rfl | h'
        · exact Or.inl rfl
        · rcases ih true c h' with h'' | ⟨hm, hwc⟩
          · exact Or.inl h''
          · exact Or.inr ⟨List.mem_cons_of_mem _ hm, hwc⟩

/-- Substitution passes over a nonempty all-word-character block and
resets its run flag. -/
theorem subNonWordAux_word_append (t : List Char)
    (hw : ∀ c ∈ t, isWordChar c = true) (hne : t ≠ []) (b : Bool)
    (rest : List Char) :
    subNonWordAux b (t ++ rest) = t ++ subNonWordAux false rest := by
  induction t generalizing b with
  | nil => exact absurd rfl hne
  | cons c cs ih =>
    have hc : isWordChar c = true := hw c (List.mem_cons_self _ _)
    by_cases h : cs = []
    · subst h
      simp [subNonWordAux, hc]
    · simp only [List.cons_append, subNonWordAux, hc, if_pos, List.append_eq]
      rw [ih (fun d hd => hw d (List.mem_cons_of_mem _ hd)) h false]

/-- Substitution fixes a single-space join of nonempty word-character
tokens, whatever the incoming run flag. -/
theorem subNonWordAux_joinAux : ∀ (ts : List (List Char)),
    (∀ t ∈ ts, t ≠ [] ∧ ∀ c ∈ t, isWordChar c = true) →
    ∀ b, subNonWordAux b (joinAux ts) = joinAux ts
  | [], _, b => rfl
  | [t], h, b => by
    obtain ⟨hne, hw⟩ := h t (List.mem_cons_self _ _)
    have := subNonWordAux_word_append t hw hne b []
    simpa [joinAux, subNonWordAux] using this
  | t :: t' :: ts, h, b => by
    obtain ⟨hne, hw⟩ := h t (List.mem_cons_self _ _)
    have hrest : ∀ u ∈ t' :: ts, u ≠ [] ∧ ∀ c ∈ u, isWordChar c = true :=
      fun u hu => h u (List.mem_cons_of_mem _ hu)
    have hhead : isWordChar ' ' = false := by decide
    calc subNonWordAux b (joinAux (t :: t' :: ts))
        = subNonWordAux b (t ++ ' ' :: joinAux (t' :: ts)) := rfl
      _ = t ++ subNonWordAux false (' ' :: joinAux (t' :: ts)) :=
          subNonWordAux_word_append t hw hne b _
      _ = t ++ ' ' :: subNonWordAux true (joinAux (t' :: ts)) := by
          simp [subNonWordAux, hhead]
      _ = t ++ ' ' :: joinAux (t' :: ts) := by
          rw [subNonWordAux_joinAux (t' :: ts) hrest true]
      _ = joinAux (t :: t' :: ts) := rfl

/-- Splitting consumes a space-free block into the accumulator. -/
theorem splitAcc_word_append (t : List Char) (ht : ∀ c ∈ t, c ≠ ' ')
    (acc rest : List Char) :
    splitAcc acc (t ++ rest) = splitAcc (t.reverse ++ acc) rest := by
  induction t generalizing acc with
  | nil => simp
  | cons c cs ih =>
    have hc : c ≠ ' ' := ht c (List.mem_cons_self _ _)
    simp only [List.cons_append, splitAcc, if_neg hc, List.append_eq]
    rw [ih (fun d hd => ht d (List.mem_cons_of_mem _ hd)) (c :: acc)]
    simp

/-- Splitting a single-space join of nonempty space-free tokens
recovers exactly those tokens. -/
theorem splitAcc_joinAux : ∀ (ts : List (List Char)),
    (∀ t ∈ ts, t ≠ [] ∧ ∀ c ∈ t, c ≠ ' ') →
    splitAcc [] (joinAux ts) = ts
  | [], _ => rfl
  | [t], h => by
    obtain ⟨hne, hs⟩ := h t (List.mem_cons_self _ _)
    have h1 : splitAcc [] (t ++ []) = splitAcc (t.reverse ++ []) [] :=
      splitAcc_word_append t hs [] []
    have hne' : (t.reverse ++ []).isEmpty = false := by
      simpa using hne
    simp only [joinAux, List.append_nil] at h1 ⊢
    rw [h1]
    simp [splitAcc, hne', hne]
  | t :: t' :: ts, h => by
    obtain ⟨hne, hs⟩ := h t (List.mem_cons_self _ _)
    have hrest : ∀ u ∈ t' :: ts, u ≠ [] ∧ ∀ c ∈ u, c ≠ ' ' :=
      fun u hu => h u (List.mem_cons_of_mem _ hu)
    have hne' : (t.reverse ++ []).isEmpty = false := by
      simpa using hne
    calc splitAcc [] (joinAux (t :: t' :: ts))
        = splitAcc [] (t ++ ' ' :: joinAux (t' :: ts)) := rfl
      _ = splitAcc (t.reverse ++ []) (' ' :: joinAux (t' :: ts)) :=
          splitAcc_word_append t hs [] _
      _ = (t.reverse ++ []).reverse :: splitAcc [] (joinAux (t' :: ts)) := by
          simp [splitAcc, hne', hne]
      _ = t :: t' :: ts := by rw [splitAcc_joinAux (t' :: ts) hrest]; simp

/-- Every token produced by splitting is nonempty and consists of
non-space characters of the input or of the accumulator. -/
theorem mem_splitAcc (l : List Char) : ∀ (acc : List Char),
    (∀ c ∈ acc, c ≠ ' ') → ∀ w ∈ splitAcc acc l,
    w ≠ [] ∧ ∀ c ∈ w, c ≠ ' ' ∧ (c ∈ acc ∨ c ∈ l) := by
  induction l with
  | nil =>
    intro acc hacc w hw
    by_cases he : acc.isEmpty
    · simp [splitAcc, he] at hw
    · simp only [splitAcc] at hw
      rw [if_neg he] at hw
      rcases List.mem_cons.mp hw with rfl | h0
      · refine ⟨by simpa [List.isEmpty_iff] using he, ?_⟩
        intro c hc
        have hc' : c ∈ acc := by simpa using hc
        exact ⟨hacc c hc', Or.inl hc'⟩
      · simp at h0
  | cons d ds ih =>
    intro acc hacc w hw
    simp only [splitAcc] at hw
    by_cases hd : d = ' '
    · rw [if_pos hd] at hw
      by_cases he : acc.isEmpty
      · rw [if_pos he] at hw
        obtain ⟨hne, hmem⟩ := ih [] (by simp) w hw
        exact ⟨hne, fun c hc => ⟨(hmem c hc).1,
          Or.inr (List.mem_cons_of_mem _ ((hmem c hc).2.resolve_left (by simp)))⟩⟩
      · rw [if_neg he] at hw
        rcases List.mem_cons.mp hw with rfl | h0
        · refine ⟨by simpa [List.isEmpty_iff] using he, ?_⟩
          intro c hc
          have hc' : c ∈ acc := by simpa using hc
          exact ⟨hacc c hc', Or.inl hc'⟩
        · obtain ⟨hne, hmem⟩ := ih [] (by simp) w h0
          exact ⟨hne, fun c hc => ⟨(hmem c hc).1,
            Or.inr (List.mem_cons_of_mem _ ((hmem c hc).2.resolve_left (by simp)))⟩⟩
    · rw [if_neg hd] at hw
      have hacc' : ∀ c ∈ d :: acc, c ≠ ' ' := by
        intro c hc
        rcases List.mem_cons.mp hc with rfl | hc'
        · exact hd
        · exact hacc c hc'
      obtain ⟨hne, hmem⟩ := ih (d :: acc) hacc' w hw
      refine ⟨hne, fun c hc => ⟨(hmem c hc).1, ?_⟩⟩
      rcases (hmem c hc).2 with hc' | hc'
      · rcases List.mem_cons.mp hc' with rfl | hc''
        · exact Or.inr (List.mem_cons_self _ _)
        · exact Or.inl hc''
      · exact Or.inr (List.mem_cons_of_mem _ hc')

/-- A list mapped by a function it is pointwise fixed by is unchanged. -/
theorem map_fix {α : Type} (f : α → α) (l : List α) (h : ∀ c ∈ l, f c = c) :
    l.map f = l :=
  (List.map_congr_left h).trans (List.map_id l)

/-- Every token the first three normalization steps produce is in
normal form: nonempty, word characters only, fixed by lower-casing. -/
theorem preTokens_clean (text : String) :
    ∀ w ∈ preTokens text, isCleanToken w = true := by
  intro w hw
  simp only [preTokens, pySplit, List.mem_map] at hw
  obtain ⟨l, hl, rfl⟩ := hw
  obtain ⟨hne, hmem⟩ :=
    mem_splitAcc ((subNonWord (pyLower text)).data) [] (by simp) l hl
  unfold isCleanToken
  rw [Bool.and_eq_true]
  refine ⟨?_, ?_⟩
  · cases l with
    | nil => exact absurd rfl hne
    | cons c cs => rfl
  · rw [List.all_eq_true]
    intro c hc
    obtain ⟨hsp, hin⟩ := hmem c hc
    rcases hin with h0 | h0
    · simp at h0
    · rcases mem_subNonWordAux ((pyLower text).data) false c h0 with rfl | ⟨hmem2, hwc⟩
      · exact absurd rfl hsp
      · obtain ⟨d, _, rfl⟩ := List.mem_map.mp hmem2
        simp [hwc, charLower_idem]

/-- Every character of a single-space join is a space or belongs to
one of the joined tokens. -/
theorem mem_joinAux : ∀ (ts : List (List Char)) (c : Char),
    c ∈ joinAux ts → c = ' ' ∨ ∃ t ∈ ts, c ∈ t
  | [], c, h => by simp [joinAux] at h
  | [t], c, h => Or.inr ⟨t, List.mem_cons_self _ _, by simpa [joinAux] using h⟩
  | t :: t' :: ts, c, h => by
    simp only [joinAux, List.mem_append, List.mem_cons] at h
    rcases h with h | h
    · exact Or.inr ⟨t, List.mem_cons_self _ _, h⟩
    · rcases h with rfl | h
      · exact Or.inl rfl
      · rcases mem_joinAux (t' :: ts) c h with h1 | ⟨u, hu, hc⟩
        · exact Or.inl h1
        · exact Or.inr ⟨u, List.mem_cons_of_mem _ hu, hc⟩

/-- Re-tokenizing a single-space join of tokens the Normalizer would
keep unchanged recovers exactly those tokens. -/
theorem cleanTokens_joinWords (lem : String → String) (sw : List String)
    (ts : List String) (h : ∀ t ∈ ts, goodToken sw lem t = true) :
    cleanTokens lem sw (joinWords ts) = ts := by
  have hc : ∀ t ∈ ts,
      isCleanToken t = true ∧ 2 < t.length ∧ sw.contains t = false ∧ lem t = t := by
    intro t ht
    have h1 := h t ht
    simp only [goodToken, Bool.and_eq_true, Bool.not_eq_true', decide_eq_true_eq,
      beq_iff_eq] at h1
    exact ⟨h1.1.1.1, h1.1.1.2, h1.1.2, h1.2⟩
  have hch : ∀ t ∈ ts, t.data ≠ [] ∧ ∀ c ∈ t.data, isWordChar c = true ∧ charLower c = c := by
    intro t ht
    have h1 := (hc t ht).1
    simp only [isCleanToken, Bool.and_eq_true, Bool.not_eq_true', List.all_eq_true,
      List.isEmpty_eq_false, beq_iff_eq] at h1
    exact ⟨h1.1, fun c hcm => (h1.2 c hcm)⟩
  have hnospace : ∀ c : Char, isWordChar c = true → c ≠ ' ' := by
    intro c h1 h2
    subst h2
    exact absurd h1 (by decide)
  have htls : ∀ u ∈ ts.map String.data, u ≠ [] ∧ ∀ c ∈ u, isWordChar c = true := by
    intro u hu
    obtain ⟨t, ht, rfl⟩ := List.mem_map.mp hu
    exact ⟨(hch t ht).1, fun c hcm => ((hch t ht).2 c hcm).1⟩
  have hlow : (pyLower (joinWords ts)) = joinWords ts := by
    show (⟨(joinAux (ts.map String.data)).map charLower⟩ : String) = ⟨joinAux (ts.map String.data)⟩
    have : (joinAux (ts.map String.data)).map charLower = joinAux (ts.map String.data) := by
      refine map_fix _ _ ?_
      intro c hcm
      rcases mem_joinAux _ c hcm with rfl | ⟨u, hu, hcu⟩
      · decide
      · obtain ⟨t, ht, rfl⟩ := List.mem_map.mp hu
        exact ((hch t ht).2 c hcu).2
    rw [this]
  have hsub : subNonWord (joinWords ts) = joinWords ts := by
    show (⟨subNonWordAux false (joinAux (ts.map String.data))⟩ : String) = _
    rw [subNonWordAux_joinAux (ts.map String.data) htls false]
    rfl
  have hsplit : pySplit (joinWords ts) = ts := by
    show (splitAcc [] (joinAux (ts.map String.data))).map (fun l => (⟨l⟩ : String)) = ts
    rw [splitAcc_joinAux (ts.map String.data)
      (fun u hu => ⟨(htls u hu).1, fun c hcm => hnospace c ((htls u hu).2 c hcm)⟩)]
    rw [List.map_map]
    exact (List.map_congr_left (fun t _ => rfl)).trans (List.map_id ts)
  show ((pySplit (subNonWord (pyLower (joinWords ts)))).filter
      (fun w => !(sw.contains w) && decide (2 < w.length))).map lem = ts
  rw [hlow, hsub, hsplit]
  rw [List.filter_eq_self.mpr (fun t ht => by
    rw [Bool.and_eq_true, (hc t ht).2.2.1]
    exact ⟨rfl, decide_eq_true (hc t ht).2.1⟩)]
  exact map_fix lem ts (fun t ht => (hc t ht).2.2.2)

/-- Getting a column entry commutes with extracting the column. -/
theorem npColumn_getD (dist : List (List ℚ)) (t : Nat) : ∀ i : Nat,
    (npColumn dist t).getD i 0 = (dist.getD i []).getD t 0 := by
  induction dist with
  | nil => intro i; simp [npColumn]
  | cons d ds ih =>
    intro i
    cases i with
    | zero => simp [npColumn]
    | succ j =>
      simp only [npColumn, List.map_cons, List.getD_cons_succ]
      exact ih j

/-- Filtering a zipped row/value list on the value agrees with
filtering the index range on the corresponding matrix entry. -/
theorem zip_filter_range (df : List Row) (qs : List ℚ) (h : qs.length = df.length)
    (pq : ℚ → Bool) (f : Row → ℚ → Row) :
    ((df.zip qs).filter (fun rq => pq rq.2)).map (fun rq => f rq.1 rq.2) =
      ((List.range df.length).filter (fun i => pq (qs.getD i 0))).map
        (fun i => f (df.getD i default) (qs.getD i 0)) := by
  induction df generalizing qs with
  | nil => simp
  | cons r df' ih =>
    cases qs with
    | nil => simp at h
    | cons q qs' =>
      have h' : qs'.length = df'.length := by simpa using h
      rw [List.zip_cons_cons, List.length_cons, List.range_succ_eq_map]
      rw [List.filter_cons, List.filter_cons]
      by_cases hq : pq q = true
      · rw [if_pos (show pq (r, q).2 = true from hq),
          if_pos (show pq ((q :: qs').getD 0 0) = true from hq)]
        rw [List.map_cons, List.map_cons, ih qs' h', List.filter_map, List.map_map]
        simp only [Function.comp_def, List.getD_cons_succ, List.getD_cons_zero]
      · rw [if_neg (show ¬ pq (r, q).2 = true from hq),
          if_neg (show ¬ pq ((q :: qs').getD 0 0) = true from hq)]
        rw [ih qs' h', List.filter_map, List.map_map]
        simp only [Function.comp_def, List.getD_cons_succ]

/-- The sum of a list divided elementwise is the divided sum. -/
theorem sum_map_div (l : List ℚ) (c : ℚ) :
    (l.map (fun g => g / c)).sum = l.sum / c := by
  induction l with
  | nil => simp
  | cons x xs ih => simp [ih, add_div]

/-- C1: the Text Normalizer produces its output by exactly the
specified steps in this order — the embedded source pipeline coincides
with the specification's six sequential steps on every input, the empty
input yields the empty string, and so does an input whose tokens are
all stop words. -/
theorem clean_text_follows_spec_steps (lem : String → String)
    (sw : List String) (s : String) :
    cleanText lem sw s = cleanTextSpec lem sw s ∧
    cleanText lem sw "" = "" ∧
    ((preTokens s).all (fun w => sw.contains w) = true → cleanText lem sw s = "") := by
  refine ⟨rfl, rfl, ?_⟩
  intro hall
  have h0 : (preTokens s).filter
      (fun w => !(sw.contains w) && decide (2 < w.length)) = [] :=
    List.filter_eq_nil_iff.mpr (fun a ha => by
      have h1 := (List.all_eq_true.mp hall) a ha
      have h2 : a ∈ sw := by simpa using h1
      simp [h2])
  show joinWords (((preTokens s).filter
      (fun w => !(sw.contains w) && decide (2 < w.length))).map lem) = ""
  rw [h0]
  rfl

/-- Witness for C1 at a concrete all-stop-word input. -/
theorem clean_text_follows_spec_steps_witness :
    (preTokens "The and, THE!").all (fun w => ["the", "and"].contains w) = true ∧
    cleanText id ["the", "and"] "The and, THE!" = "" :=
  ⟨by decide,
    (clean_text_follows_spec_steps id ["the", "and"] "The and, THE!").2.2 (by decide)⟩

/-- C4 counterexample: on input `foo_bar` the output token contains an
underscore — a word character kept by the regex `\W+` but not an
alphanumeric character (the WordNet lemmatizer returns words missing
from its dictionary, such as `foo_bar`, unchanged, so the identity
lemmatizer is faithful at this input). -/
theorem clean_text_output_alphanumeric_cex :
    cleanText id [] "foo_bar" = "foo_bar" ∧
    '_' ∈ (cleanText id [] "foo_bar").data ∧ '_'.isAlphanum = false :=
  ⟨by decide, by decide, by decide⟩

/-- C4 (amended): provided the lemmatizer maps normal-form tokens to
normal-form tokens, the Normalizer's output consists only of word
characters (letters, digits, underscore — not merely alphanumeric)
fixed by lower-casing, and single spaces; and every output token is
the lemmatization of a normal-form token of length greater than 2 that
is not a stop word. -/
theorem clean_text_output_wordchar_tokens (lem : String → String)
    (sw : List String) (s : String)
    (hlem : ∀ w, isCleanToken w = true → isCleanToken (lem w) = true) :
    (cleanText lem sw s).data.all
      (fun c => (isWordChar c && (charLower c == c)) || (c == ' ')) = true ∧
    ∀ t ∈ cleanTokens lem sw s, ∃ w, t = lem w ∧ isCleanToken w = true ∧
      2 < w.length ∧ sw.contains w = false := by
  have h2 : ∀ t ∈ cleanTokens lem sw s, ∃ w, t = lem w ∧ isCleanToken w = true ∧
      2 < w.length ∧ sw.contains w = false := by
    intro t ht
    obtain ⟨w, hw, rfl⟩ := List.mem_map.mp ht
    have hwp := List.mem_filter.mp hw
    have hclean := preTokens_clean s w hwp.1
    have hcond := hwp.2
    rw [Bool.and_eq_true] at hcond
    exact ⟨w, rfl, hclean, by simpa using hcond.2, by simpa using hcond.1⟩
  refine ⟨?_, h2⟩
  rw [List.all_eq_true]
  intro c hc
  rcases mem_joinAux _ c hc with rfl | ⟨u, hu, hcu⟩
  · simp
  · obtain ⟨t, ht, rfl⟩ := List.mem_map.mp hu
    obtain ⟨w, rfl, hw, _, _⟩ := h2 t ht
    have hct := hlem w hw
    simp only [isCleanToken, Bool.and_eq_true, List.all_eq_true] at hct
    have h3 := hct.2 c hcu
    simp [h3]

/-- Witness for the amended C4 with the identity lemmatizer on a mixed
input. -/
theorem clean_text_output_wordchar_tokens_witness :
    (cleanText id ["the"] "The foo_bar, ab!").data.all
      (fun c => (isWordChar c && (charLower c == c)) || (c == ' ')) = true :=
  (clean_text_output_wordchar_tokens id ["the"] "The foo_bar, ab!"
    (fun _ h => h)).1

/-- C7 counterexample: WordNet lemmatizes the surviving token `oxen` to
`ox`, itself a fixed point of lemmatization, yet the length filter of a
second pass drops `ox`, so normalizing the normalized output changes
it — lemma convergence alone does not give idempotence. -/
theorem clean_text_idempotent_cex :
    lemOx (lemOx "oxen") = lemOx "oxen" ∧
    cleanText lemOx [] (cleanText lemOx [] "oxen") ≠ cleanText lemOx [] "oxen" :=
  ⟨by decide, by decide⟩

/-- C7 (amended): the Normalizer is idempotent on its output for every
input whose produced lemmas a second pass keeps unchanged: each output
token in normal form, longer than 2 characters, not a stop word, and a
fixed point of the lemmatizer (the claim's lemmatization-convergence
proviso strengthened by the three filter conditions, which the `oxen`
counterexample shows are needed). -/
theorem clean_text_idempotent_on_kept_output (lem : String → String)
    (sw : List String) (s : String)
    (h : (cleanTokens lem sw s).all (goodToken sw lem) = true) :
    cleanText lem sw (cleanText lem sw s) = cleanText lem sw s := by
  have key := cleanTokens_joinWords lem sw (cleanTokens lem sw s)
    (List.all_eq_true.mp h)
  show joinWords (cleanTokens lem sw (joinWords (cleanTokens lem sw s))) =
    joinWords (cleanTokens lem sw s)
  rw [key]

/-- Witness for the amended C7 on a concrete input. -/
theorem clean_text_idempotent_on_kept_output_witness :
    (cleanTokens id ["the"] "Hello, the world!").all (goodToken ["the"] id) = true ∧
    cleanText id ["the"] (cleanText id ["the"] "Hello, the world!") =
      cleanText id ["the"] "Hello, the world!" :=
  ⟨by decide,
    clean_text_idempotent_on_kept_output id ["the"] "Hello, the world!" (by decide)⟩

/-- C2: `filter_by_topic` returns exactly the subsequence of rows `i`
with `dist[i][t] > 0.1` (strict comparison against the fixed threshold
1/10), in their original relative order, each returned row carrying the
`Topic_Distribution` value written during the call. -/
theorem filter_by_topic_threshold_subsequence (df : List Row) (t : Nat)
    (dist : List (List ℚ)) (hlen : dist.length = df.length) :
    (filter_by_topic df t dist).2 =
      ((List.range df.length).filter
          (fun i => decide (mkRat 1 10 < (dist.getD i []).getD t 0))).map
        (fun i => { df.getD i default with
          topicDistribution := some ((dist.getD i []).getD t 0) }) := by
  have hq : (npColumn dist t).length = df.length := by
    simpa [npColumn] using hlen
  have hcomp : ((fun r : Row => decide (mkRat 1 10 < r.topicDistribution.getD 0)) ∘
      (fun p : Row × ℚ => { p.1 with topicDistribution := some p.2 })) =
      (fun p : Row × ℚ => decide (mkRat 1 10 < p.2)) :=
    funext fun p => rfl
  have key2 : ((List.range df.length).filter
        (fun i => decide (mkRat 1 10 < (npColumn dist t).getD i 0))).map
      (fun i => { df.getD i default with
        topicDistribution := some ((npColumn dist t).getD i 0) }) =
      ((List.range df.length).filter
        (fun i => decide (mkRat 1 10 < (dist.getD i []).getD t 0))).map
      (fun i => { df.getD i default with
        topicDistribution := some ((dist.getD i []).getD t 0) }) := by
    simp only [npColumn_getD]
  have e : (filter_by_topic df t dist).2 =
      ((df.zip (npColumn dist t)).map
        (fun p => { p.1 with topicDistribution := some p.2 })).filter
        (fun r => decide (mkRat 1 10 < r.topicDistribution.getD 0)) := rfl
  rw [e, List.filter_map, hcomp]
  refine Eq.trans ?_ key2
  exact zip_filter_range df (npColumn dist t) hq
    (fun q => decide (mkRat 1 10 < q))
    (fun r q => { r with topicDistribution := some q })

/-- Witness for C2: three aligned rows, of which the first and third
exceed the threshold on topic 0. -/
theorem filter_by_topic_threshold_subsequence_witness :
    (filter_by_topic sampleDf 0 [[mkRat 1 2], [mkRat 1 20], [mkRat 3 10]]).2 =
      [{ nameOfIncident := "A", country := "India",
          topicDistribution := some (mkRat 1 2) },
       { nameOfIncident := "C", country := "India",
          topicDistribution := some (mkRat 3 10) }] := by
  rw [filter_by_topic_threshold_subsequence sampleDf 0
    [[mkRat 1 2], [mkRat 1 20], [mkRat 3 10]] (by decide)]
  decide

/-- C3 counterexample: `filter_by_topic` writes the
`Topic_Distribution` column into the caller's DataFrame — after the
call the caller's row has gained the column, so the caller's record
collection is observably changed. -/
theorem filters_nonmutating_cex :
    (filter_by_topic [({} : Row)] 0 [[(1 : ℚ)]]).1 ≠ [({} : Row)] ∧
    (filter_by_topic [({} : Row)] 0 [[(1 : ℚ)]]).1.map
      (fun r => r.topicDistribution) = [some 1] :=
  ⟨by decide, by decide⟩

/-- Rows of the mutated frame differ from the originals only in the
`Topic_Distribution` field. -/
theorem zip_frame_all (df : List Row) (qs : List ℚ) :
    (df.zip ((df.zip qs).map
        (fun rq => { rq.1 with topicDistribution := some rq.2 }))).all
      (fun p => p.2 == { p.1 with topicDistribution := p.2.topicDistribution }) = true := by
  induction df generalizing qs with
  | nil => rfl
  | cons r df' ih =>
    cases qs with
    | nil => rfl
    | cons q qs' =>
      rw [List.zip_cons_cons, List.map_cons, List.zip_cons_cons, List.all_cons,
        Bool.and_eq_true]
      exact ⟨by simp, ih qs'⟩

/-- C3 (corrected): `filter_by_country` is a pure read — its result is
a subsequence of the unchanged input — but `filter_by_topic` mutates
the caller's DataFrame: it writes the selected topic's column into
every row as `Topic_Distribution`, leaving the row count and every
other field unchanged. -/
theorem filters_frame_effects (df : List Row) (t : Nat)
    (dist : List (List ℚ)) (c : String) (hlen : dist.length = df.length) :
    (filter_by_topic df t dist).1.length = df.length ∧
    (df.zip (filter_by_topic df t dist).1).all
      (fun p => p.2 == { p.1 with topicDistribution := p.2.topicDistribution }) = true ∧
    (filter_by_topic df t dist).1.all (fun r => r.topicDistribution.isSome) = true ∧
    (filter_by_country df c).Sublist df := by
  refine ⟨?_, zip_frame_all df (npColumn dist t), ?_, List.filter_sublist df⟩
  · have h1 : (filter_by_topic df t dist).1 = (df.zip (npColumn dist t)).map
        (fun p => { p.1 with topicDistribution := some p.2 }) := rfl
    rw [h1, List.length_map, List.length_zip]
    simp [npColumn, hlen]
  · rw [List.all_eq_true]
    intro r hr
    obtain ⟨p, _, rfl⟩ := List.mem_map.mp hr
    rfl

/-- Witness for the corrected C3 at concrete aligned inputs. -/
theorem filters_frame_effects_witness :
    (filter_by_topic sampleDf 1 [[0, (1 : ℚ)/5], [0, 1/50], [0, 2/5]]).1.length =
      sampleDf.length ∧
    (filter_by_country sampleDf "Mars").Sublist sampleDf := by
  have h := filters_frame_effects sampleDf 1 [[0, (1 : ℚ)/5], [0, 1/50], [0, 2/5]]
    "Mars" (by decide)
  exact ⟨h.1, h.2.2.2⟩

/-- C5: `filter_by_country` is an exact-match filter: its result is a
subsequence of the input whose rows all carry the requested `Country`,
with as many rows as the input has matches (so exactly the matching
subsequence, order preserved), and the result is empty precisely when
no row matches — an empty valid list, not an error. -/
theorem filter_by_country_exact_match (df : List Row) (c : String) :
    (filter_by_country df c).Sublist df ∧
    (filter_by_country df c).all (fun r => r.country == c) = true ∧
    df.countP (fun r => r.country == c) = (filter_by_country df c).length ∧
    (df.all (fun r => !(r.country == c)) = true ↔ filter_by_country df c = []) := by
  refine ⟨List.filter_sublist df, ?_, List.countP_eq_length_filter _ df, ?_⟩
  · rw [List.all_eq_true]
    intro r hr
    exact (List.mem_filter.mp hr).2
  · constructor
    · intro h
      rw [List.all_eq_true] at h
      exact List.filter_eq_nil_iff.mpr (fun a ha => by simpa using h a ha)
    · intro h
      rw [List.all_eq_true]
      intro a ha
      simpa using List.filter_eq_nil_iff.mp h a ha

/-- Witness for C5: the specification's India/France example, with the
match count and the empty result for the absent country `Mars`. -/
theorem filter_by_country_exact_match_witness :
    (filter_by_country sampleDf "India").all (fun r => r.country == "India") = true ∧
    (filter_by_country sampleDf "India").length = 2 ∧
    filter_by_country sampleDf "Mars" = [] :=
  ⟨(filter_by_country_exact_match sampleDf "India").2.1, by decide,
    (filter_by_country_exact_match sampleDf "Mars").2.2.2.mp (by decide)⟩

/-- C6: the fit phase fails whenever the document collection is empty
or no term survives the document-frequency bounds, and the failure is
a configuration/vocabulary error (the bound-related errors reporting
the offending bounds `min_df = 2`, `max_df = 0.9`) rather than a
fitted unit. -/
theorem train_lda_model_vocabulary_error (sklStop : List String)
    (df : List Row) (k : Nat)
    (h : df = [] ∨
      fitVocab sklStop (df.map (fun r => r.processedImpact.getD "")) = []) :
    train_lda_model sklStop df k = .error FitError.emptyVocabulary ∨
    train_lda_model sklStop df k = .error (FitError.maxDfLtMinDf ((9 : ℚ)/10) 2) ∨
    train_lda_model sklStop df k = .error (FitError.noTermsRemain 2 ((9 : ℚ)/10)) := by
  rcases h with rfl | hv
  · exact Or.inl rfl
  · simp only [train_lda_model]
    by_cases h1 : (((df.map (fun r => r.processedImpact.getD "")).map
        (sklearn_analyze sklStop)).flatten.dedup).isEmpty = true
    · rw [if_pos h1]
      exact Or.inl rfl
    · rw [if_neg h1]
      by_cases h2 : 9 * (df.map (fun r => r.processedImpact.getD "")).length < 20
      · rw [if_pos (decide_eq_true h2)]
        exact Or.inr (Or.inl rfl)
      · rw [if_neg (fun hh => h2 (of_decide_eq_true hh))]
        rw [if_pos (List.isEmpty_iff.mpr hv)]
        exact Or.inr (Or.inr rfl)

/-- Witness for C6: three documents with pairwise-disjoint terms, so
every term has document frequency 1 and the lower bound `min_df = 2`
prunes the whole vocabulary. -/
theorem train_lda_model_vocabulary_error_witness :
    fitVocab [] (fitDf.map (fun r => r.processedImpact.getD "")) = [] ∧
    (train_lda_model [] fitDf 7 = .error FitError.emptyVocabulary ∨
     train_lda_model [] fitDf 7 = .error (FitError.maxDfLtMinDf ((9 : ℚ)/10) 2) ∨
     train_lda_model [] fitDf 7 = .error (FitError.noTermsRemain 2 ((9 : ℚ)/10))) :=
  ⟨by decide, train_lda_model_vocabulary_error [] fitDf 7 (Or.inr (by decide))⟩

/-- C8: the transform produces exactly one Topic Distribution per
record, each with `K` entries that are all nonnegative and sum to
exactly 1 (hence within any floating-point tolerance), given positive
length-`K` variational weights for each document. -/
theorem topic_distributions_are_distributions (gamma_of : String → List ℚ)
    (K : Nat) (df : List Row) (hK : 0 < K)
    (hlen : ∀ d, (gamma_of d).length = K)
    (hpos : ∀ d, ∀ g ∈ gamma_of d, 0 < g) :
    (topic_distributions gamma_of df).length = df.length ∧
    (topic_distributions gamma_of df).all (isDistribution K) = true := by
  refine ⟨by simp [topic_distributions], ?_⟩
  rw [List.all_eq_true]
  intro p hp
  simp only [topic_distributions, List.mem_map] at hp
  obtain ⟨r, _, rfl⟩ := hp
  set γ := gamma_of (r.processedImpact.getD "") with hγ
  have hl : γ.length = K := by rw [hγ]; exact hlen _
  have hne : γ ≠ [] := by
    intro h0
    rw [h0] at hl
    simp at hl
    omega
  have hs : 0 < γ.sum := List.sum_pos γ
    (fun g hg => hpos (r.processedImpact.getD "") g (by rw [hγ] at hg; exact hg)) hne
  unfold isDistribution lda_transform_row
  rw [Bool.and_eq_true, Bool.and_eq_true]
  refine ⟨⟨?_, ?_⟩, ?_⟩
  · simp [hl]
  · rw [List.all_eq_true]
    intro q hq
    obtain ⟨g, hg, rfl⟩ := List.mem_map.mp hq
    have hgpos : 0 < g := hpos (r.processedImpact.getD "") g (by rw [hγ] at hg; exact hg)
    exact decide_eq_true (div_nonneg (le_of_lt hgpos) (le_of_lt hs))
  · rw [sum_map_div]
    simp [div_self (ne_of_gt hs)]

/-- Witness for C8 with constant weights `[1, 3]` over one record and
two topics. -/
theorem topic_distributions_are_distributions_witness :
    (topic_distributions gammaTwo [({} : Row)]).length = 1 ∧
    (topic_distributions gammaTwo [({} : Row)]).all (isDistribution 2) = true :=
  topic_distributions_are_distributions gammaTwo 2 [({} : Row)]
    (by decide) (fun _ => rfl)
    (fun _ => by
      show ∀ g ∈ [(1 : ℚ), 3], 0 < g
      decide)

/-- C9: on a DataFrame whose `Impact` cells are all strings,
`preprocess_text` returns the caller's DataFrame with a
`Processed_Impact` column equal row-wise to `clean_text` of that row's
`Impact`, every other column, every row and the row order unchanged
(the in-place mutation of the caller's frame is modelled by returning
the updated frame). -/
theorem preprocess_text_adds_processed_impact (lem : String → String)
    (sw : List String) (df : List Row)
    (h : ∀ r ∈ df, r.impact.isStr = true) :
    preprocess_text lem sw df = .ok (df.map (fun r =>
      { r with processedImpact := some (cleanText lem sw r.impact.getStr) })) := by
  induction df with
  | nil => rfl
  | cons r rs ih =>
    have hr : r.impact.isStr = true := h r (List.mem_cons_self _ _)
    have ih' := ih (fun x hx => h x (List.mem_cons_of_mem _ hx))
    cases him : r.impact with
    | nan => rw [him] at hr; simp [Cell.isStr] at hr
    | str s =>
      simp only [preprocess_text, him, clean_text_cell, ih', List.map_cons, Cell.getStr]

/-- Witness for C9 on a one-row frame with a string impact. -/
theorem preprocess_text_adds_processed_impact_witness :
    preprocess_text id [] [{ impact := Cell.str "Wars cause famine." }] =
      .ok [{ impact := Cell.str "Wars cause famine.",
             processedImpact := some "wars cause famine" }] := by
  rw [preprocess_text_adds_processed_impact id [] _ (by decide)]
  rfl

/-- C10: normalization is defined only for string impact values — a
DataFrame containing a missing (`NaN`) impact cell makes
`preprocess_text` raise through the unguarded `.lower()` call, while
on every string cell `clean_text` returns a string without raising. -/
theorem clean_text_requires_string (lem : String → String) (sw : List String)
    (df : List Row) (h : ∃ r ∈ df, r.impact = Cell.nan) :
    isOkE (preprocess_text lem sw df) = false ∧
    ∀ s, clean_text_cell lem sw (Cell.str s) = .ok (cleanText lem sw s) := by
  have main : ∀ l : List Row, (∃ r ∈ l, r.impact = Cell.nan) →
      isOkE (preprocess_text lem sw l) = false := by
    intro l
    induction l with
    | nil => intro h0; simp at h0
    | cons r rs ih =>
      intro h0
      obtain ⟨r0, hr0, hnan⟩ := h0
      cases him : r.impact with
      | nan =>
        have he : preprocess_text lem sw (r :: rs) =
            .error "AttributeError: float object has no attribute lower" := by
          simp [preprocess_text, him, clean_text_cell]
        rw [he]
        rfl
      | str s =>
        have hr0' : r0 ∈ rs := by
          rcases List.mem_cons.mp hr0 with rfl | hmem
          · rw [him] at hnan
            exact absurd hnan (by simp)
          · exact hmem
        have htail := ih ⟨r0, hr0', hnan⟩
        simp only [preprocess_text, him, clean_text_cell]
        cases hpt : preprocess_text lem sw rs with
        | error e => rfl
        | ok rest =>
          rw [hpt] at htail
          simp [isOkE] at htail
  exact ⟨main df h, fun s => rfl⟩

/-- Witness for C10 on a one-row frame with a missing impact. -/
theorem clean_text_requires_string_witness :
    isOkE (preprocess_text id [] [{ impact := Cell.nan }]) = false :=
  (clean_text_requires_string id [] [{ impact := Cell.nan }] (by decide)).1

end CrisisCompass
